import Mathlib

/-!
Shallow embedding of the OpenMHzPi core pipeline (poll → dedup → bounded
queue → sequential playback) from `main.go`, together with the historical
player variant that downloads and transcodes audio files.

The Go program keeps a `sync.Map` of processed call IDs, a buffered channel
of capacity `MaxQueueSize = 50` used as a drop-oldest FIFO, a fetcher loop
(`fetchCalls`) with a priming first cycle, a player loop (`playAudio`), and
a `done` channel that both loops select on for shutdown.
-/

namespace OpenMHzPi

/-- One recorded transmission, as decoded from the calls JSON
(`type Call` in `main.go`). -/
structure Call where
  ID : String
  URL : String
  Filename : String
  Time : String
deriving DecidableEq

/-- The deduplication ledger: the set of call IDs stored in the
`processedCalls` `sync.Map` (all stored values are `true`, so only
membership matters). -/
abbrev Ledger := List String

/-- `processedCalls.Store(id, true)`: after the call, `id` is present.
Membership-faithful model of `sync.Map.Store`. -/
def Ledger.store (m : Ledger) (id : String) : Ledger :=
  if id ∈ m then m else id :: m

/-- `processedCalls.LoadOrStore(id, true)`: returns whether `id` was
already present, and the ledger afterwards (atomic check-and-set). -/
def Ledger.loadOrStore (m : Ledger) (id : String) : Bool × Ledger :=
  if id ∈ m then (true, m) else (false, id :: m)

/-- The non-blocking send from `fetchCalls`:
`select { case queue <- call: ... default: <-queue; queue <- call }` on a
buffered channel of capacity `cap`. If there is room the call goes to the
tail; if the channel is full the head (oldest) element is received and
discarded, then the call goes to the tail. -/
def tryEnqueue (cap : Nat) (q : List Call) (c : Call) : List Call :=
  if q.length < cap then q ++ [c] else q.tail ++ [c]

/-- The element discarded by `tryEnqueue` (empty when there was room). -/
def evictedBy (cap : Nat) (q : List Call) : List Call :=
  if q.length < cap then [] else q.head?.toList

/-- State of the `fetchCalls` loop: the `isFirstRun` flag, the
`processedCalls` ledger and the `queue` channel contents, plus a ghost
log `enqLog` of every call handed to the channel send, in order. -/
structure FetchState where
  isFirstRun : Bool
  processed : Ledger
  queue : List Call
  enqLog : List Call
deriving DecidableEq

/-- The per-call body of the `for _, call := range callsResponse.Calls`
loop in `fetchCalls` (`main.go:187-208`): during the first run, store the
ID and skip; otherwise `LoadOrStore` and, when the ID was new, perform the
non-blocking send. -/
def processCall (cap : Nat) (st : FetchState) (c : Call) : FetchState :=
  if st.isFirstRun then
    { st with processed := Ledger.store st.processed c.ID }
  else
    let r := Ledger.loadOrStore st.processed c.ID
    if r.1 then
      { st with processed := r.2 }
    else
      { st with processed := r.2,
                queue := tryEnqueue cap st.queue c,
                enqLog := st.enqLog ++ [c] }

/-- The failure modes of one fetch attempt (`fetchJSON` plus
`json.Unmarshal` in `fetchCalls`): network error, non-OK status code,
missing `<pre>` markers, `strconv.Unquote` failure, JSON parse failure. -/
inductive FetchErr where
  | network
  | badStatus
  | noPreTags
  | unescape
  | parse
deriving DecidableEq

/-- Outcome of one fetch attempt: either a failure or the decoded list of
calls. -/
abbrev FetchResult := Except FetchErr (List Call)

/-- One `case <-time.After(FetchInterval)` iteration of `fetchCalls`
(`main.go:170-213`): on any fetch/parse error the cycle is abandoned via
`continue` with the state untouched; on success every call in the listing
is processed in response order and then `isFirstRun` is cleared. -/
def fetchCycle (cap : Nat) (st : FetchState) (r : FetchResult) : FetchState :=
  match r with
  | Except.error _ => st
  | Except.ok calls =>
      let st2 := calls.foldl (processCall cap) st
      if st2.isFirstRun then { st2 with isFirstRun := false } else st2

/-- A run of the fetcher loop over a sequence of cycle outcomes. -/
def fetchRun (cap : Nat) (st : FetchState) (rs : List FetchResult) : FetchState :=
  rs.foldl (fetchCycle cap) st

/-- The state of `fetchCalls` right after
`queue := make(chan Call, MaxQueueSize); processedCalls := &sync.Map{}`. -/
def initState : FetchState :=
  { isFirstRun := true, processed := [], queue := [], enqLog := [] }

/-- `MaxQueueSize` from `main.go`. -/
def MaxQueueSize : Nat := 50

/-- A run of `LoadOrStore` over a sequence of IDs, returning for each ID
whether it was newly marked (the negation of the `exists` result). -/
def markSeenRun (m : Ledger) : List String → List Bool × Ledger
  | [] => ([], m)
  | id :: rest =>
      let r := Ledger.loadOrStore m id
      let rec2 := markSeenRun r.2 rest
      ((!r.1) :: rec2.1, rec2.2)

/-- An operation on the shared channel: a non-blocking producer send
(`tryEnqueue`) or a consumer receive (`case call := <-queue`; a receive on
an empty channel blocks, modelled as leaving the state unchanged until a
send happens). -/
inductive QOp where
  | enq (c : Call)
  | deq
deriving DecidableEq

/-- Channel state with ghost logs: calls sent (`enqLog`), calls discarded
by the drop-oldest policy (`evLog`), calls received by the player
(`deqLog`), each in order of occurrence. -/
structure QState where
  queue : List Call
  enqLog : List Call
  evLog : List Call
  deqLog : List Call
deriving DecidableEq

/-- Effect of one channel operation. -/
def qstep (cap : Nat) (s : QState) : QOp → QState
  | QOp.enq c =>
      { s with queue := tryEnqueue cap s.queue c,
               enqLog := s.enqLog ++ [c],
               evLog := s.evLog ++ evictedBy cap s.queue }
  | QOp.deq =>
      match s.queue with
      | [] => s
      | c :: rest => { s with queue := rest, deqLog := s.deqLog ++ [c] }

/-- A run of channel operations from the empty channel. -/
def qrun (cap : Nat) (ops : List QOp) : QState :=
  ops.foldl (qstep cap) { queue := [], enqLog := [], evLog := [], deqLog := [] }

/-- A concrete call, used in scenario theorems. -/
def callA : Call := { ID := "A", URL := "uA", Filename := "fA", Time := "tA" }

/-- A concrete call, used in scenario theorems. -/
def callB : Call := { ID := "B", URL := "uB", Filename := "fB", Time := "tB" }

/-- A concrete call, used in scenario theorems. -/
def callC : Call := { ID := "C", URL := "uC", Filename := "fC", Time := "tC" }

/-- What one iteration of the `playAudio` loop in `main.go` can do:
take the `<-done` branch and return, or take the `call := <-queue` branch
and process a call. -/
inductive PlayerStep where
  | exit
  | play (c : Call)
deriving DecidableEq

/-- The `select` at the top of `playAudio` (`main.go:219-223`), as a
relation between the shutdown signal (`done` closed?), the queue contents
and the chosen branch. Per Go semantics a branch can be chosen only when
its communication is ready: receiving from the closed `done` channel is
always ready once the signal is set, and receiving from `queue` is ready
only when the channel is non-empty. When several branches are ready the
choice is pseudo-random, hence a relation. -/
inductive playerSelect : Bool → List Call → PlayerStep → Prop
  | done (q : List Call) : playerSelect true q PlayerStep.exit
  | recv (d : Bool) (c : Call) (q : List Call) :
      playerSelect d (c :: q) (PlayerStep.play c)

/-- What one iteration of the `fetchCalls` loop can do: take the `<-done`
branch and return, or take the `<-time.After(FetchInterval)` branch and
run a fetch cycle. -/
inductive FetcherStep where
  | exit
  | runFetchCycle
deriving DecidableEq

/-- The `select` at the top of `fetchCalls` (`main.go:166-170`): receiving
from closed `done` is ready once the signal is set; the timer branch is
ready only once the interval has elapsed. -/
inductive fetcherSelect : Bool → Bool → FetcherStep → Prop
  | done (timerFired : Bool) : fetcherSelect true timerFired FetcherStep.exit
  | timer (d : Bool) : fetcherSelect d true FetcherStep.runFetchCycle

/-- Outcome of the startup sequence inside the `Run` function of `main`: either a
`logger.Fatal` (which prints the message and calls `os.Exit(1)`) before
the goroutines are started, or the running state with both background
tasks launched for the selected system. -/
inductive StartupOutcome where
  | fatalExit (code : Nat)
  | running (shortName : String)
deriving DecidableEq

/-- Whether the `fetchCalls` and `playAudio` goroutines were started. -/
def tasksStarted : StartupOutcome → Bool
  | StartupOutcome.fatalExit _ => false
  | StartupOutcome.running _ => true

/-- The startup control flow of `main.go:268-290`: check
`isFlareSolverrRunning` (fatal if not), then, when no `--shortname` was
given, run `fetchSystems` (fatal on error, which covers a failed system
listing and a failed interactive selection); only then are the two
goroutines started. `sysResult` is the outcome of the black-box
`fetchSystems` adapter. -/
def runStartup (flareOk : Bool) (argShortName : String)
    (sysResult : Except String String) : StartupOutcome :=
  if flareOk = false then StartupOutcome.fatalExit 1
  else if argShortName = "" then
    match sysResult with
    | Except.error _ => StartupOutcome.fatalExit 1
    | Except.ok s => StartupOutcome.running s
  else StartupOutcome.running argShortName

/-- Control decision after one fetch attempt inside the steady loop of
`fetchCalls`: every failure arm executes `logger.Error(...)` followed by
`continue`, never `logger.Fatal` or `return`. -/
inductive LoopControl where
  | continueLoop
  | exitProcess
deriving DecidableEq

/-- The loop-control outcome of one `fetchCalls` cycle (`main.go:172-183`):
errors are logged and the loop continues; success also continues. -/
def fetchCycleControl (r : FetchResult) : LoopControl :=
  match r with
  | Except.error _ => LoopControl.continueLoop
  | Except.ok _ => LoopControl.continueLoop

/-- The loop-control outcome of one `playAudio` item in `main.go:224-235`:
a failed roger beep is logged and the loop continues; a failed playback is
logged and the loop continues; success continues. -/
def playerCycleControl (beepOk playOk : Bool) : LoopControl :=
  if beepOk = false then LoopControl.continueLoop
  else if playOk = false then LoopControl.continueLoop
  else LoopControl.continueLoop

/-- Outcome of `downloadFile` (historical player, `src/unnamed/part_001`):
`http.Get` failure (no file created), `os.Create` failure (no file),
`io.Copy` failure (a partial file was created and remains), or success
(the file exists). -/
inductive DlResult where
  | netFail
  | createFail
  | copyFail
  | ok
deriving DecidableEq

/-- Files present on disk after `downloadFile` returns. -/
def downloadLeftover (filePath : String) : DlResult → List String
  | DlResult.netFail => []
  | DlResult.createFail => []
  | DlResult.copyFail => [filePath]
  | DlResult.ok => [filePath]

/-- Temporary audio files still on disk after one `playAudio` item of the
downloading player (`src/unnamed/part_001:239-280`): on a download
failure the loop continues with whatever `downloadFile` left behind; on a
`convertToMP3` failure it continues leaving the downloaded file; on a
`getTrackLength` or `playFile` failure it continues leaving both files;
only after a fully successful playback are both files removed
(`os.Remove`). The `part_000` variant behaves the same way on its
failure paths. -/
def playAudioCycleFiles (filePath mp3Path : String)
    (dl : DlResult) (convertOk probeOk playOk : Bool) : List String :=
  match dl with
  | DlResult.ok =>
      if convertOk = false then [filePath]
      else if probeOk = false then [filePath, mp3Path]
      else if playOk = false then [filePath, mp3Path]
      else []
  | d => downloadLeftover filePath d

/-! Queue lemmas -/

lemma tryEnqueue_length_le {cap : Nat} (hcap : 1 ≤ cap) (q : List Call) (c : Call)
    (h : q.length ≤ cap) : (tryEnqueue cap q c).length ≤ cap := by
  unfold tryEnqueue
  split
  · simp only [List.length_append, List.length_singleton]
    omega
  · cases q with
    | nil => simp at *; omega
    | cons a t => simp at h ⊢; omega

lemma qstep_queue_length_le {cap : Nat} (hcap : 1 ≤ cap) (s : QState) (op : QOp)
    (h : s.queue.length ≤ cap) : (qstep cap s op).queue.length ≤ cap := by
  cases op with
  | enq c => exact tryEnqueue_length_le hcap s.queue c h
  | deq =>
      cases hq : s.queue with
      | nil =>
          have hs : qstep cap s QOp.deq = s := by simp [qstep, hq]
          rw [hs]
          exact h
      | cons a t => simp [qstep, hq] at h ⊢; omega

lemma qfold_queue_length_le {cap : Nat} (hcap : 1 ≤ cap) (ops : List QOp) (s : QState)
    (h : s.queue.length ≤ cap) : ((ops.foldl (qstep cap) s)).queue.length ≤ cap := by
  induction ops generalizing s with
  | nil => exact h
  | cons op rest ih => exact ih _ (qstep_queue_length_le hcap s op h)

lemma qstep_fifo {cap : Nat} (s : QState) (op : QOp)
    (h : (s.deqLog ++ s.queue).Sublist s.enqLog) :
    (((qstep cap s op).deqLog ++ (qstep cap s op).queue)).Sublist
      (qstep cap s op).enqLog := by
  cases op with
  | enq c =>
      simp only [qstep, tryEnqueue]
      split
      · rw [← List.append_assoc]
        exact h.append (List.Sublist.refl [c])
      · rw [← List.append_assoc]
        exact (((List.tail_sublist s.queue).append_left s.deqLog).trans h).append
          (List.Sublist.refl [c])
  | deq =>
      cases hq : s.queue with
      | nil =>
          have hs : qstep cap s QOp.deq = s := by simp [qstep, hq]
          rw [hs]
          exact h
      | cons a t =>
          simp only [qstep, hq, List.append_assoc, List.singleton_append]
          simpa [hq] using h

lemma qstep_count {cap : Nat} (s : QState) (op : QOp) (c : Call)
    (h : s.enqLog.count c =
      s.deqLog.count c + s.queue.count c + s.evLog.count c) :
    (qstep cap s op).enqLog.count c =
      (qstep cap s op).deqLog.count c + (qstep cap s op).queue.count c
        + (qstep cap s op).evLog.count c := by
  cases op with
  | enq x =>
      by_cases hlt : s.queue.length < cap
      · simp [qstep, tryEnqueue, evictedBy, hlt] at h ⊢
        omega
      · cases hq : s.queue with
        | nil => simp [qstep, tryEnqueue, evictedBy, hlt, hq] at h ⊢; omega
        | cons a t =>
            rw [hq] at hlt
            simp only [List.length_cons] at hlt
            by_cases hac : a = c <;> by_cases hxc : x = c <;>
              simp [qstep, tryEnqueue, evictedBy, hlt, hq, hac, hxc,
                List.count_cons] at h ⊢ <;> omega
  | deq =>
      cases hq : s.queue with
      | nil =>
          have hs : qstep cap s QOp.deq = s := by simp [qstep, hq]
          rw [hs]
          exact h
      | cons a t =>
          by_cases hac : a = c <;>
            simp [qstep, hq, hac, List.count_cons] at h ⊢ <;> omega

lemma qfold_fifo {cap : Nat} (ops : List QOp) (s : QState)
    (h : (s.deqLog ++ s.queue).Sublist s.enqLog) :
    (((ops.foldl (qstep cap) s).deqLog ++ (ops.foldl (qstep cap) s).queue)).Sublist
      (ops.foldl (qstep cap) s).enqLog := by
  induction ops generalizing s with
  | nil => exact h
  | cons op rest ih => exact ih _ (qstep_fifo s op h)

lemma qfold_count {cap : Nat} (ops : List QOp) (s : QState) (c : Call)
    (h : s.enqLog.count c =
      s.deqLog.count c + s.queue.count c + s.evLog.count c) :
    (ops.foldl (qstep cap) s).enqLog.count c =
      (ops.foldl (qstep cap) s).deqLog.count c
        + (ops.foldl (qstep cap) s).queue.count c
        + (ops.foldl (qstep cap) s).evLog.count c := by
  induction ops generalizing s with
  | nil => exact h
  | cons op rest ih => exact ih _ (qstep_count s op c h)

/-- C5: after any interleaving of non-blocking sends and receives starting
from the empty channel, the queue holds at most `cap` elements (for any
positive capacity, in particular `MaxQueueSize = 50`). -/
theorem queue_length_le_capacity (cap : Nat) (ops : List QOp) (hcap : 1 ≤ cap) :
    (qrun cap ops).queue.length ≤ cap :=
  qfold_queue_length_le hcap ops _ (by simp)

/-- Witness for C5 at capacity 2 and three sends. -/
theorem queue_length_le_capacity_witness :
    (qrun 2 [QOp.enq callA, QOp.enq callB, QOp.enq callC]).queue.length ≤ 2 :=
  queue_length_le_capacity 2 [QOp.enq callA, QOp.enq callB, QOp.enq callC]
    (by decide)

/-- C2: sending into a full queue discards exactly the current head (the
oldest pending call) and appends the new call at the tail, never more
than one element; and with capacity 2, enqueuing A, B, C with no receives
in between leaves the queue holding [B, C] with A the only discarded
call. -/
theorem tryEnqueue_full_evicts_exactly_head :
    (∀ (cap : Nat) (s : QState) (c : Call),
        s.queue.length = cap → 1 ≤ cap →
        ∃ hd tl, s.queue = hd :: tl ∧
          (qstep cap s (QOp.enq c)).queue = tl ++ [c] ∧
          (qstep cap s (QOp.enq c)).evLog = s.evLog ++ [hd] ∧
          (qstep cap s (QOp.enq c)).queue.length = cap)
    ∧ (qrun 2 [QOp.enq callA, QOp.enq callB, QOp.enq callC]).queue
        = [callB, callC]
    ∧ (qrun 2 [QOp.enq callA, QOp.enq callB, QOp.enq callC]).evLog
        = [callA] := by
  refine ⟨?_, by decide, by decide⟩
  intro cap s c hfull hcap
  have hnlt : ¬ s.queue.length < cap := by omega
  cases hq : s.queue with
  | nil =>
      rw [hq] at hfull
      simp at hfull
      omega
  | cons hd tl =>
      rw [hq] at hfull hnlt
      simp only [List.length_cons] at hfull hnlt
      refine ⟨hd, tl, rfl, ?_, ?_, ?_⟩
      · simp [qstep, tryEnqueue, hq, hnlt]
      · simp [qstep, evictedBy, hq, hnlt]
      · simp [qstep, tryEnqueue, hq, hnlt]
        omega

/-- Witness for C2: the queue after sending A then B at capacity 2 is
full, and sending C evicts exactly A. -/
theorem tryEnqueue_full_evicts_exactly_head_witness :
    ∃ hd tl, (qrun 2 [QOp.enq callA, QOp.enq callB]).queue = hd :: tl ∧
      (qstep 2 (qrun 2 [QOp.enq callA, QOp.enq callB]) (QOp.enq callC)).queue
        = tl ++ [callC] ∧
      (qstep 2 (qrun 2 [QOp.enq callA, QOp.enq callB]) (QOp.enq callC)).evLog
        = (qrun 2 [QOp.enq callA, QOp.enq callB]).evLog ++ [hd] ∧
      (qstep 2 (qrun 2 [QOp.enq callA, QOp.enq callB]) (QOp.enq callC)).queue.length
        = 2 :=
  tryEnqueue_full_evicts_exactly_head.1 2
    (qrun 2 [QOp.enq callA, QOp.enq callB]) callC (by decide) (by decide)

/-! Ledger and fetcher lemmas -/

lemma mem_store_self (m : Ledger) (x : String) : x ∈ Ledger.store m x := by
  unfold Ledger.store
  split <;> simp_all

lemma mem_store_mono {m : Ledger} {x : String} (id : String) (h : x ∈ m) :
    x ∈ Ledger.store m id := by
  unfold Ledger.store
  split
  · exact h
  · exact List.mem_cons_of_mem id h

lemma mem_loadOrStore_self (m : Ledger) (x : String) :
    x ∈ (Ledger.loadOrStore m x).2 := by
  unfold Ledger.loadOrStore
  split <;> simp_all

lemma mem_loadOrStore_mono {m : Ledger} {x : String} (id : String) (h : x ∈ m) :
    x ∈ (Ledger.loadOrStore m id).2 := by
  unfold Ledger.loadOrStore
  split
  · exact h
  · exact List.mem_cons_of_mem id h

lemma loadOrStore_fst_true {m : Ledger} {x : String} (h : x ∈ m) :
    (Ledger.loadOrStore m x).1 = true := by
  simp [Ledger.loadOrStore, h]

lemma loadOrStore_fst_false {m : Ledger} {x : String} (h : x ∉ m) :
    (Ledger.loadOrStore m x).1 = false := by
  simp [Ledger.loadOrStore, h]

lemma processCall_isFirstRun (cap : Nat) (st : FetchState) (c : Call) :
    (processCall cap st c).isFirstRun = st.isFirstRun := by
  by_cases hfr : st.isFirstRun <;> by_cases hmem : c.ID ∈ st.processed <;>
    simp [processCall, Ledger.loadOrStore, hfr, hmem]

lemma processCall_processed_mono {cap : Nat} {st : FetchState} {c : Call}
    {x : String} (h : x ∈ st.processed) :
    x ∈ (processCall cap st c).processed := by
  by_cases hfr : st.isFirstRun
  · simpa [processCall, hfr] using mem_store_mono c.ID h
  · by_cases hmem : c.ID ∈ st.processed <;>
      simp [processCall, Ledger.loadOrStore, hfr, hmem, h]

lemma processCall_no_new_enq {cap : Nat} {st : FetchState} {c : Call}
    {x : String} (h1 : x ∈ st.processed) (h2 : x ∉ st.enqLog.map Call.ID) :
    x ∈ (processCall cap st c).processed ∧
      x ∉ (processCall cap st c).enqLog.map Call.ID := by
  refine ⟨processCall_processed_mono h1, ?_⟩
  by_cases hfr : st.isFirstRun
  · simpa [processCall, hfr] using h2
  · by_cases hmem : c.ID ∈ st.processed
    · simpa [processCall, Ledger.loadOrStore, hfr, hmem] using h2
    · have hne : x ≠ c.ID := fun he => hmem (by rw [← he]; exact h1)
      simp [processCall, Ledger.loadOrStore, hfr, hmem, h2, hne]

lemma foldl_isFirstRun (cap : Nat) (cs : List Call) (st : FetchState) :
    (cs.foldl (processCall cap) st).isFirstRun = st.isFirstRun := by
  induction cs generalizing st with
  | nil => rfl
  | cons c rest ih => rw [List.foldl_cons, ih, processCall_isFirstRun]

lemma foldl_processed_mono {cap : Nat} {x : String} (cs : List Call)
    {st : FetchState} (h : x ∈ st.processed) :
    x ∈ (cs.foldl (processCall cap) st).processed := by
  induction cs generalizing st with
  | nil => exact h
  | cons c rest ih => exact ih (processCall_processed_mono h)

lemma foldl_no_new_enq {cap : Nat} {x : String} (cs : List Call)
    {st : FetchState} (h1 : x ∈ st.processed)
    (h2 : x ∉ st.enqLog.map Call.ID) :
    x ∈ (cs.foldl (processCall cap) st).processed ∧
      x ∉ (cs.foldl (processCall cap) st).enqLog.map Call.ID := by
  induction cs generalizing st with
  | nil => exact ⟨h1, h2⟩
  | cons c rest ih =>
      obtain ⟨g1, g2⟩ := processCall_no_new_enq (c := c) h1 h2
      exact ih g1 g2

lemma fetchCycle_no_new_enq {cap : Nat} {st : FetchState} {x : String}
    (r : FetchResult) (h1 : x ∈ st.processed)
    (h2 : x ∉ st.enqLog.map Call.ID) :
    x ∈ (fetchCycle cap st r).processed ∧
      x ∉ (fetchCycle cap st r).enqLog.map Call.ID := by
  cases r with
  | error e => exact ⟨h1, h2⟩
  | ok cs =>
      obtain ⟨g1, g2⟩ := foldl_no_new_enq cs h1 h2
      simp only [fetchCycle]
      split
      · exact ⟨g1, g2⟩
      · exact ⟨g1, g2⟩

lemma fetchRun_no_new_enq {cap : Nat} {x : String} (rs : List FetchResult)
    {st : FetchState} (h1 : x ∈ st.processed)
    (h2 : x ∉ st.enqLog.map Call.ID) :
    x ∈ (fetchRun cap st rs).processed ∧
      x ∉ (fetchRun cap st rs).enqLog.map Call.ID := by
  induction rs generalizing st with
  | nil => exact ⟨h1, h2⟩
  | cons r rest ih =>
      obtain ⟨g1, g2⟩ := fetchCycle_no_new_enq r h1 h2
      exact ih g1 g2

lemma foldl_priming (cap : Nat) (cs : List Call) (st : FetchState)
    (hfr : st.isFirstRun = true) :
    (cs.foldl (processCall cap) st).enqLog = st.enqLog ∧
    (cs.foldl (processCall cap) st).queue = st.queue ∧
    ∀ c ∈ cs, c.ID ∈ (cs.foldl (processCall cap) st).processed := by
  induction cs generalizing st with
  | nil => exact ⟨rfl, rfl, by simp⟩
  | cons c rest ih =>
      have hstep : processCall cap st c =
          { st with processed := Ledger.store st.processed c.ID } := by
        simp [processCall, hfr]
      have hfr2 : (processCall cap st c).isFirstRun = true := by
        rw [processCall_isFirstRun]; exact hfr
      obtain ⟨e1, e2, e3⟩ := ih (processCall cap st c) hfr2
      refine ⟨by rw [List.foldl_cons, e1, hstep], by rw [List.foldl_cons, e2, hstep], ?_⟩
      intro d hd
      rcases List.mem_cons.mp hd with hdc | hdr
      · subst hdc
        rw [List.foldl_cons]
        exact foldl_processed_mono rest (by rw [hstep]; exact mem_store_self _ _)
      · exact e3 d hdr

lemma fetchCycle_isFirstRun_ok (cap : Nat) (st : FetchState) (cs : List Call) :
    (fetchCycle cap st (Except.ok cs)).isFirstRun = false := by
  simp only [fetchCycle]
  split
  · rfl
  · next hne => simpa using hne

lemma fetchCycle_priming (cap : Nat) (cs : List Call) (st : FetchState)
    (hfr : st.isFirstRun = true) :
    (fetchCycle cap st (Except.ok cs)).isFirstRun = false ∧
    (fetchCycle cap st (Except.ok cs)).enqLog = st.enqLog ∧
    (fetchCycle cap st (Except.ok cs)).queue = st.queue ∧
    ∀ c ∈ cs, c.ID ∈ (fetchCycle cap st (Except.ok cs)).processed := by
  obtain ⟨e1, e2, e3⟩ := foldl_priming cap cs st hfr
  refine ⟨fetchCycle_isFirstRun_ok cap st cs, ?_, ?_, ?_⟩ <;>
    · simp only [fetchCycle]
      split <;> simp_all

lemma fetchRun_isFirstRun_iff (cap : Nat) (rs : List FetchResult)
    (st : FetchState) :
    ((fetchRun cap st rs).isFirstRun = true ↔
      (st.isFirstRun = true ∧ ∀ r ∈ rs, ∃ e, r = Except.error e)) := by
  induction rs generalizing st with
  | nil => simp [fetchRun]
  | cons r rest ih =>
      cases r with
      | error e =>
          have hstep : fetchCycle cap st (Except.error e) = st := rfl
          simp only [fetchRun, List.foldl_cons, hstep] at *
          rw [ih]
          simp
      | ok cs =>
          simp only [fetchRun, List.foldl_cons]
          rw [show (List.foldl (fetchCycle cap)
              (fetchCycle cap st (Except.ok cs)) rest) =
              fetchRun cap (fetchCycle cap st (Except.ok cs)) rest from rfl]
          rw [ih]
          simp [fetchCycle_isFirstRun_ok]

lemma fetchRun_errors (cap : Nat) (errs : List FetchErr) (st : FetchState) :
    fetchRun cap st (errs.map Except.error) = st := by
  induction errs generalizing st with
  | nil => rfl
  | cons e rest ih =>
      have hstep : fetchCycle cap st (Except.error e) = st := rfl
      simp only [fetchRun, List.map_cons, List.foldl_cons, hstep]
      exact ih st

lemma processCall_enq_inv {cap : Nat} {st : FetchState} {c : Call}
    (h : ∀ x : String, (st.enqLog.map Call.ID).count x ≤ 1 ∧
      (x ∈ st.enqLog.map Call.ID → x ∈ st.processed)) :
    ∀ x : String, ((processCall cap st c).enqLog.map Call.ID).count x ≤ 1 ∧
      (x ∈ (processCall cap st c).enqLog.map Call.ID →
        x ∈ (processCall cap st c).processed) := by
  intro x
  by_cases hfr : st.isFirstRun
  · refine ⟨?_, ?_⟩ <;> simp only [processCall, hfr, if_true, if_pos]
    · exact (h x).1
    · exact fun hx => mem_store_mono _ ((h x).2 hx)
  · by_cases hmem : c.ID ∈ st.processed
    · simpa [processCall, Ledger.loadOrStore, hfr, hmem] using h x
    · have hup : (processCall cap st c).enqLog = st.enqLog ++ [c] ∧
          (processCall cap st c).processed = c.ID :: st.processed := by
        simp [processCall, Ledger.loadOrStore, hfr, hmem]
      rw [hup.1, hup.2]
      by_cases hx : x = c.ID
      · have hnot : x ∉ st.enqLog.map Call.ID :=
          fun hmm => hmem (hx ▸ (h x).2 hmm)
        refine ⟨?_, fun _ => by rw [hx]; exact List.mem_cons_self _ _⟩
        rw [List.map_append, List.count_append]
        have hz : (st.enqLog.map Call.ID).count x = 0 :=
          List.count_eq_zero.mpr hnot
        rw [hx] at hz
        simp [hz, List.count_singleton, hx]
      · refine ⟨?_, ?_⟩
        · rw [List.map_append, List.count_append]
          have h1 := (h x).1
          have hz : ((([c]).map Call.ID).count x) = 0 := by
            simp [List.count_singleton, hx]
          omega
        · intro hx2
          rw [List.map_append] at hx2
          rcases List.mem_append.mp hx2 with h3 | h3
          · exact List.mem_cons_of_mem _ ((h x).2 h3)
          · exfalso
            simp [List.map_cons] at h3
            exact hx h3

lemma foldl_enq_inv (cap : Nat) (cs : List Call) {st : FetchState}
    (h : ∀ x : String, (st.enqLog.map Call.ID).count x ≤ 1 ∧
      (x ∈ st.enqLog.map Call.ID → x ∈ st.processed)) :
    ∀ x : String,
      ((cs.foldl (processCall cap) st).enqLog.map Call.ID).count x ≤ 1 ∧
      (x ∈ (cs.foldl (processCall cap) st).enqLog.map Call.ID →
        x ∈ (cs.foldl (processCall cap) st).processed) := by
  induction cs generalizing st with
  | nil => exact h
  | cons c rest ih => exact ih (processCall_enq_inv h)

lemma fetchCycle_enq_inv {cap : Nat} (r : FetchResult) {st : FetchState}
    (h : ∀ x : String, (st.enqLog.map Call.ID).count x ≤ 1 ∧
      (x ∈ st.enqLog.map Call.ID → x ∈ st.processed)) :
    ∀ x : String,
      ((fetchCycle cap st r).enqLog.map Call.ID).count x ≤ 1 ∧
      (x ∈ (fetchCycle cap st r).enqLog.map Call.ID →
        x ∈ (fetchCycle cap st r).processed) := by
  cases r with
  | error e => exact h
  | ok cs =>
      intro x
      have hfold := foldl_enq_inv cap cs h x
      simp only [fetchCycle]
      split
      · exact hfold
      · exact hfold

lemma fetchRun_enq_inv {cap : Nat} (rs : List FetchResult) {st : FetchState}
    (h : ∀ x : String, (st.enqLog.map Call.ID).count x ≤ 1 ∧
      (x ∈ st.enqLog.map Call.ID → x ∈ st.processed)) :
    ∀ x : String,
      ((fetchRun cap st rs).enqLog.map Call.ID).count x ≤ 1 ∧
      (x ∈ (fetchRun cap st rs).enqLog.map Call.ID →
        x ∈ (fetchRun cap st rs).processed) := by
  induction rs generalizing st with
  | nil => exact h
  | cons r rest ih => exact ih (fetchCycle_enq_inv r h)

lemma markSeenRun_zip_count_of_mem {m : Ledger} (ids : List String)
    {x : String} (h : x ∈ m) :
    ((ids.zip (markSeenRun m ids).1).count (x, true)) = 0 := by
  induction ids generalizing m with
  | nil => simp [markSeenRun]
  | cons id rest ih =>
      by_cases hid : id = x
      · subst hid
        have h1 : (Ledger.loadOrStore m id).1 = true := loadOrStore_fst_true h
        simp [markSeenRun, List.zip_cons_cons, List.count_cons, h1,
          ih (mem_loadOrStore_mono id h)]
      · simp [markSeenRun, List.zip_cons_cons, List.count_cons, hid,
          ih (mem_loadOrStore_mono id h)]

lemma markSeenRun_zip_count_le_one (m : Ledger) (ids : List String)
    (x : String) :
    ((ids.zip (markSeenRun m ids).1).count (x, true)) ≤ 1 := by
  induction ids generalizing m with
  | nil => simp [markSeenRun]
  | cons id rest ih =>
      by_cases hid : id = x
      · subst hid
        by_cases hm : id ∈ m
        · have h1 : (Ledger.loadOrStore m id).1 = true := loadOrStore_fst_true hm
          simp [markSeenRun, List.zip_cons_cons, List.count_cons, h1,
            markSeenRun_zip_count_of_mem rest (mem_loadOrStore_mono id hm)]
        · have h1 : (Ledger.loadOrStore m id).1 = false := loadOrStore_fst_false hm
          simp [markSeenRun, List.zip_cons_cons, List.count_cons, h1,
            markSeenRun_zip_count_of_mem rest (mem_loadOrStore_self m id)]
      · simp only [markSeenRun, List.zip_cons_cons, List.count_cons]
        have hne : ((id, !(Ledger.loadOrStore m id).1) == (x, true)) = false := by
          simp [hid]
        rw [hne]
        simpa using ih ((Ledger.loadOrStore m id).2)

/-- C4: among calls never discarded by the drop-oldest policy, the order
in which the player receives calls is exactly the order in which the
fetcher sent them: after any interleaving, the received calls followed by
the still-pending calls form a sublist (order-preserving selection) of
the send log, and every send is accounted for exactly once as received,
pending, or evicted. -/
theorem fifo_order_preserved (cap : Nat) (ops : List QOp) :
    (((qrun cap ops).deqLog ++ (qrun cap ops).queue)).Sublist
      (qrun cap ops).enqLog
    ∧ ∀ c : Call,
        (qrun cap ops).enqLog.count c =
          (qrun cap ops).deqLog.count c + (qrun cap ops).queue.count c
            + (qrun cap ops).evLog.count c :=
  ⟨qfold_fifo ops _ (by simp), fun c => qfold_count ops _ c (by simp)⟩

/-- C1: a call whose identity appears in the listing of the priming cycle is
never sent to the queue, in that cycle or in any later steady-state
cycle; and in the scenario where the priming cycle returns [A, B] and the
next cycle returns [A, B, C], the complete send log is exactly [C]. -/
theorem priming_calls_never_enqueued :
    (∀ (cap : Nat) (prime : List Call) (rest : List FetchResult) (c : Call),
        c ∈ prime →
        c.ID ∉ (fetchRun cap initState
          (Except.ok prime :: rest)).enqLog.map Call.ID)
    ∧ (fetchRun MaxQueueSize initState
        [Except.ok [callA, callB], Except.ok [callA, callB, callC]]).enqLog
      = [callC] := by
  refine ⟨?_, by decide⟩
  intro cap prime rest c hc
  obtain ⟨_, he, _, hp⟩ :=
    fetchCycle_priming cap prime initState rfl
  have h1 : c.ID ∈ (fetchCycle cap initState (Except.ok prime)).processed :=
    hp c hc
  have h2 : c.ID ∉
      (fetchCycle cap initState (Except.ok prime)).enqLog.map Call.ID := by
    rw [he]
    simp [initState]
  exact (fetchRun_no_new_enq rest h1 h2).2

/-- Witness for C1: call A from the priming listing [A, B] is never
enqueued even though it reappears in the steady-state listing [A, B, C]. -/
theorem priming_calls_never_enqueued_witness :
    callA.ID ∉ (fetchRun MaxQueueSize initState
      (Except.ok [callA, callB]
        :: [Except.ok [callA, callB, callC]])).enqLog.map Call.ID :=
  priming_calls_never_enqueued.1 MaxQueueSize [callA, callB]
    [Except.ok [callA, callB, callC]] callA (by decide)

/-- C3: `LoadOrStore` reports an identity as newly marked at most once
over any run of check-and-mark operations from any starting ledger, and
consequently any fixed identity occurs at most once in the fetcher send
log over any sequence of cycles. -/
theorem markSeen_new_at_most_once :
    (∀ (m : Ledger) (ids : List String) (x : String),
        ((ids.zip (markSeenRun m ids).1).count (x, true)) ≤ 1)
    ∧ (∀ (cap : Nat) (rs : List FetchResult) (x : String),
        (((fetchRun cap initState rs).enqLog.map Call.ID).count x) ≤ 1) := by
  constructor
  · intro m ids x
    exact markSeenRun_zip_count_le_one m ids x
  · intro cap rs x
    have hinv : ∀ y : String,
        ((initState.enqLog.map Call.ID).count y ≤ 1 ∧
          (y ∈ initState.enqLog.map Call.ID → y ∈ initState.processed)) := by
      intro y
      simp [initState]
    exact (fetchRun_enq_inv rs hinv x).1

/-- C6: when a fetch cycle fails (network error, bad status, missing
`<pre>` markers, unescape failure, or JSON parse failure) the cycle is
abandoned with the whole fetcher state — queue, send log, ledger, priming
flag — unchanged, and the loop proceeds to the next interval cycle: a run
starting with the failed cycle equals the run without it. -/
theorem fetch_failure_abandons_cycle :
    ∀ (cap : Nat) (st : FetchState) (e : FetchErr) (rest : List FetchResult),
      fetchCycle cap st (Except.error e) = st ∧
      fetchRun cap st (Except.error e :: rest) = fetchRun cap st rest :=
  fun _ _ _ _ => ⟨rfl, rfl⟩

/-- C10: the fetcher is still in priming mode after a sequence of cycles
if and only if every cycle so far failed; and after any number of failed
cycles followed by the first successful one, priming mode is over, nothing
was ever sent to the queue, and every call of that first successful
listing is marked seen in the ledger. -/
theorem priming_persists_until_first_success :
    (∀ (cap : Nat) (rs : List FetchResult),
        ((fetchRun cap initState rs).isFirstRun = true ↔
          ∀ r ∈ rs, ∃ e, r = Except.error e))
    ∧ (∀ (cap : Nat) (errs : List FetchErr) (cs : List Call),
        (fetchRun cap initState
            (errs.map Except.error ++ [Except.ok cs])).isFirstRun = false ∧
        (fetchRun cap initState
            (errs.map Except.error ++ [Except.ok cs])).enqLog = [] ∧
        ∀ c ∈ cs, c.ID ∈ (fetchRun cap initState
            (errs.map Except.error ++ [Except.ok cs])).processed) := by
  constructor
  · intro cap rs
    rw [fetchRun_isFirstRun_iff]
    simp [initState]
  · intro cap errs cs
    have hsplit : fetchRun cap initState (errs.map Except.error ++ [Except.ok cs])
        = fetchCycle cap initState (Except.ok cs) := by
      show List.foldl (fetchCycle cap) initState _ = _
      rw [List.foldl_append]
      rw [show List.foldl (fetchCycle cap) initState (errs.map Except.error)
        = fetchRun cap initState (errs.map Except.error) from rfl]
      rw [fetchRun_errors]
      rfl
    rw [hsplit]
    obtain ⟨h1, h2, _, h4⟩ :=
      fetchCycle_priming cap cs initState rfl
    exact ⟨h1, by rw [h2]; rfl, h4⟩

/-- Witness for C10: after one failed cycle and then a successful listing
containing call A, the identity of call A is marked seen in the ledger. -/
theorem priming_persists_until_first_success_witness :
    callA.ID ∈ (fetchRun MaxQueueSize initState
      ([FetchErr.network].map Except.error ++ [Except.ok [callA]])).processed :=
  (priming_persists_until_first_success.2 MaxQueueSize
    [FetchErr.network] [callA]).2.2 callA (by decide)

/-- C7 counterexample: with the shutdown signal set and a call still
queued, the player `select` has two ready branches and may take the queue
branch (Go chooses pseudo-randomly among ready cases), so a step that
begins another playback item instead of exiting is possible: the claim
that once the signal is set the loop never begins another item is false. -/
theorem shutdown_immediate_exit_counterexample :
    playerSelect true [callA] (PlayerStep.play callA) ∧
      PlayerStep.play callA ≠ PlayerStep.exit :=
  ⟨playerSelect.recv true callA [], by decide⟩

/-- C7 (amended): once the shutdown signal is set, a loop reaching its
waiting point while the competing channel is not ready must exit: the
player blocked on an empty queue can only take the done branch and exits
without dequeuing, and the fetcher whose interval timer has not fired can
only exit without starting another cycle. -/
theorem shutdown_exit_when_only_done_ready :
    (∀ s : PlayerStep, playerSelect true [] s → s = PlayerStep.exit)
    ∧ (∀ s : FetcherStep, fetcherSelect true false s → s = FetcherStep.exit) := by
  constructor
  · intro s h
    cases h
    rfl
  · intro s h
    cases h
    rfl

/-- Witness for the amended C7 at the concrete blocked states. -/
theorem shutdown_exit_when_only_done_ready_witness :
    PlayerStep.exit = PlayerStep.exit ∧ FetcherStep.exit = FetcherStep.exit :=
  ⟨shutdown_exit_when_only_done_ready.1 PlayerStep.exit (playerSelect.done []),
   shutdown_exit_when_only_done_ready.2 FetcherStep.exit
     (fetcherSelect.done false)⟩

/-- C8: the startup sequence ends in a fatal exit with status 1 exactly
when the anti-bot proxy is unreachable, or no system was passed on the
command line and the system-selection step fails; a fatal exit means the
background tasks were never started; and inside the steady-state loops
every failure arm continues the loop, never terminating the process. -/
theorem fatal_startup_errors_exit_before_tasks :
    (∀ (flareOk : Bool) (arg : String) (res : Except String String),
        (runStartup flareOk arg res = StartupOutcome.fatalExit 1 ↔
          (flareOk = false ∨ (arg = "" ∧ ∃ e, res = Except.error e))))
    ∧ (∀ (flareOk : Bool) (arg : String) (res : Except String String) (c : Nat),
        runStartup flareOk arg res = StartupOutcome.fatalExit c →
          tasksStarted (runStartup flareOk arg res) = false)
    ∧ (∀ r : FetchResult, fetchCycleControl r = LoopControl.continueLoop)
    ∧ (∀ beepOk playOk : Bool,
        playerCycleControl beepOk playOk = LoopControl.continueLoop) := by
  refine ⟨?_, ?_, ?_, ?_⟩
  · intro flareOk arg res
    cases flareOk <;> cases res <;> by_cases harg : arg = "" <;>
      simp [runStartup, harg]
  · intro flareOk arg res c h
    rw [h]
    rfl
  · intro r
    cases r <;> rfl
  · intro b p
    cases b <;> cases p <;> rfl

/-- Witness for C8: with the proxy down the outcome is a fatal exit and
the background tasks are not started. -/
theorem fatal_startup_errors_exit_before_tasks_witness :
    tasksStarted (runStartup false "sys" (Except.ok "sys")) = false :=
  fatal_startup_errors_exit_before_tasks.2.1 false "sys" (Except.ok "sys") 1
    (by decide)

/-- C9, code evaluated at the failing input: in the downloading player,
when the download succeeds and the ffmpeg conversion fails, the loop
abandons the call leaving the downloaded file on disk — a temporary audio
file outlives the player cycle that created it, so resources are not
released on every exit path. -/
theorem playback_failure_leaves_temp_file :
    playAudioCycleFiles "OpenMHzPi-downloads/a.m4a" "OpenMHzPi-downloads/a.mp3"
        DlResult.ok false true true
      = ["OpenMHzPi-downloads/a.m4a"]
    ∧ playAudioCycleFiles "OpenMHzPi-downloads/a.m4a" "OpenMHzPi-downloads/a.mp3"
        DlResult.ok false true true ≠ ([] : List String) := by
  constructor
  · rfl
  · decide

end OpenMHzPi
